import Mathlib

/-!
Verification development for `coroutinesub.py`, a monoalphabetic
substitution-cipher solver.  The program is embedded shallowly: strings
become `List Char`, Python dicts become insertion-ordered association
lists, the coroutine chain becomes an explicit depth-first propagation
function, and the `re` regexes produced by `getregex` are embedded by
their per-character matching semantics.
-/

/-- The constant `string.ascii_lowercase`. -/
def asciiLowercase : List Char := "abcdefghijklmnopqrstuvwxyz".toList

/-- Embeds `scrubstring`: lowercase the string and keep only characters of
`ascii_lowercase`. -/
def scrubstring (s : List Char) : List Char :=
  (s.map Char.toLower).filter (fun ch => ch ∈ asciiLowercase)

/-- Lookup in an insertion-ordered association list (a Python dict's
`d[k]`, returning `none` where Python raises `KeyError`). -/
def alookup {β : Type} (x : Char) : List (Char × β) → Option β
  | [] => none
  | (a, b) :: t => if a = x then some b else alookup x t

/-- Loop body of `getpatterntuple`: `letters` is the dict mapping each
letter already seen to its rank (`len(letters) + 1` at insertion time). -/
def patternAux (letters : List (Char × Nat)) : List Char → List Nat
  | [] => []
  | c :: rest =>
    match alookup c letters with
    | some n => n :: patternAux letters rest
    | none => (letters.length + 1) :: patternAux (letters ++ [(c, letters.length + 1)]) rest

/-- The `letters` dict left behind by the `getpatterntuple` loop. -/
def buildDict (letters : List (Char × Nat)) : List Char → List (Char × Nat)
  | [] => letters
  | c :: rest =>
    match alookup c letters with
    | some _ => buildDict letters rest
    | none => buildDict (letters ++ [(c, letters.length + 1)]) rest

/-- Embeds `getpatterntuple`: lower the word, then assign each newly seen
letter the next unused rank, reusing ranks for repeats. -/
def getpatterntuple (word : List Char) : List Nat :=
  patternAux [] (word.map Char.toLower)

/-- A guess at the substitution dictionary: a Python dict from cipher
letters to plain letters, as an insertion-ordered association list. -/
abbrev Mapping := List (Char × Char)

/-- Python dict assignment `m[k] = v`: overwrite in place if the key is
present, append otherwise. -/
def pyInsert (m : Mapping) (k v : Char) : Mapping :=
  match m with
  | [] => [(k, v)]
  | (a, b) :: rest => if a = k then (a, v) :: rest else (a, b) :: pyInsert rest k v

/-- Sequence of dict assignments, one per pair. -/
def extIns (m : Mapping) : List (Char × Char) → Mapping
  | [] => m
  | (a, b) :: rest => extIns (pyInsert m a b) rest

/-- The dict's `.values()`. -/
def mvalues (m : Mapping) : List Char := m.map Prod.snd

/-- Last-write-wins view of a sequence of dict assignments: the value the
sequence leaves at key `x`, if it writes `x` at all. -/
def assignOf : List (Char × Char) → Char → Option Char
  | [], _ => none
  | (a, b) :: rest, x =>
    match assignOf rest x with
    | some v => some v
    | none => if a = x then some b else none

/-- Matching semantics of the wildcard atom built by `getregex`: `.` when
the substitution dict is empty (any character except a newline),
otherwise the class `[^vals]` over the dict's values. -/
def wildMatches (subs : Mapping) (c : Char) : Bool :=
  if subs.isEmpty then decide (c ≠ '\n') else decide (c ∉ mvalues subs)

/-- Matching semantics of the atom `getregex` emits for one cipher
character: the literal `subs[ch]` if `ch` is a key, the wildcard
otherwise. -/
def atomMatches (subs : Mapping) (cipherch plainch : Char) : Bool :=
  match alookup cipherch subs with
  | some v => decide (plainch = v)
  | none => wildMatches subs plainch

/-- Semantics of `getregex(cipherword, subs).match(plainword)` for the
anchored regex `^...$`: same length and every position matches its atom. -/
def regexMatches (cipherword : List Char) (subs : Mapping) (plainword : List Char) : Bool :=
  decide (plainword.length = cipherword.length) &&
    (List.zip cipherword plainword).all (fun cp => atomMatches subs cp.1 cp.2)

/-- The extension loop of `guesser`: `newguess = copy(guess)` followed by
`newguess[cipherword[i]] = plainword[i]` for every position `i`. -/
def newguessFor (cipherword plainword : List Char) (guess : Mapping) : Mapping :=
  extIns guess (List.zip cipherword plainword)

/-- One activation of the `guesser` coroutine: for each candidate word
matching the regex, emit the extended guess. -/
def guesserStep (cipherword : List Char) (patterns : List (List Char)) (guess : Mapping) : List Mapping :=
  (patterns.filter (fun p => regexMatches cipherword guess p)).map
    (fun p => newguessFor cipherword p guess)

/-- Depth-first propagation of one guess through the chain of guesser
stages (listed entry-stage first); returns the guesses delivered to the
chain's endpoint. -/
def propagate (cands : List Char → List (List Char)) : List (List Char) → Mapping → List Mapping
  | [], guess => [guess]
  | w :: rest, guess => (guesserStep w (cands w) guess).flatMap (propagate cands rest)

/-- The `possibilities` set `guesscollector` accumulates for one cipher
letter, as a duplicate-free list: for every received guess, iterate its
keys and add `guess[k]` for the keys equal to `x`. -/
def possSet (ms : List Mapping) (x : Char) : List Char :=
  (ms.flatMap (fun g => (g.map Prod.fst).filterMap
    (fun k => if k = x then alookup k g else none))).dedup

/-- The `GeneratorExit` branch of `guesscollector`, for one letter: skip
when no plain letter was proposed, take the single proposal when there is
exactly one, and the placeholder otherwise. -/
def resolveLetter (poss : List Char) : Option Char :=
  if poss.length = 0 then none
  else if poss.length = 1 then poss.head?
  else some '_'

/-- The `finaldict` built by `guesscollector` on close, keyed in the
canonical order of `ascii_lowercase`. -/
def finaldict (ms : List Mapping) : Mapping :=
  asciiLowercase.filterMap (fun x => (resolveLetter (possSet ms x)).map (fun v => (x, v)))

/-- Embeds one character of `prettyprint`; for `ch` in `ascii_lowercase`
we have `ch.lower() == ch`, so `substitutions[ch]` is the looked-up
value. -/
def prettyChar (subs : Mapping) (ch : Char) : Char :=
  match alookup ch.toLower subs with
  | none => ch
  | some v => if ch ∈ asciiLowercase then v else v.toUpper

/-- Embeds `prettyprint`: substitute character by character, preserving
case and passing unmapped characters through. -/
def prettyprint (ciphertext : List Char) (subs : Mapping) : List Char :=
  ciphertext.map (prettyChar subs)

/-- Python's `text.split(' ')`: split at every single space, keeping
empty tokens. -/
def splitSpaces : List Char → List (List Char)
  | [] => [[]]
  | c :: rest =>
    if c = ' ' then [] :: splitSpaces rest
    else
      match splitSpaces rest with
      | [] => [[c]]
      | h :: t => (c :: h) :: t

/-- The `cipherlist` of `__main__`: scrub each space-separated token and
drop the ones that scrub to the empty string. -/
def cipherlist (text : List Char) : List (List Char) :=
  ((splitSpaces text).map scrubstring).filter (fun w => w ≠ [])

/-- Append-if-absent de-duplication, keeping first occurrences, as done by
the `if line not in patterns[tup]` guard. -/
def dedupFirst {α : Type} [DecidableEq α] : List α → List α → List α
  | _, [] => []
  | seen, a :: t => if a ∈ seen then dedupFirst seen t else a :: dedupFirst (a :: seen) t

/-- The candidate bucket `patterns[tup]` built by `__main__`: scrubbed
dictionary lines with signature `tup`, first occurrences only, and only
for signatures the ciphertext needs. -/
def candsFor (text : List Char) (dictlines : List (List Char)) (tup : List Nat) : List (List Char) :=
  if tup ∈ (cipherlist text).map getpatterntuple then
    dedupFirst [] ((dictlines.map scrubstring).filter (fun l => getpatterntuple l = tup))
  else []

/-- Stable insertion used to model `list.sort(cmp)` with
`cmp(a,b) = len(patterns[pat b]) - len(patterns[pat a])`: `a` is placed
before the first element with no more candidates than `a`. -/
def insertDesc (cnt : List Char → Nat) (a : List Char) : List (List Char) → List (List Char)
  | [] => [a]
  | b :: t => if cnt b ≤ cnt a then a :: b :: t else b :: insertDesc cnt a t

/-- Stable sort by decreasing candidate count; Python's `list.sort` is
stable, and a stable sort under a total preorder is unique, so this
agrees with the source's `cipherlist.sort(...)`. -/
def sortDesc (cnt : List Char → Nat) : List (List Char) → List (List Char)
  | [] => []
  | a :: t => insertDesc cnt a (sortDesc cnt t)

/-- The candidate bucket attached to a stage for word `w`:
`patterns[getpatterntuple(w)]`. -/
def pipelineCands (text : List Char) (dictlines : List (List Char)) : List Char → List (List Char) :=
  fun w => candsFor text dictlines (getpatterntuple w)

/-- The cipherlist after the branching-factor sort of `__main__`. -/
def sortedCipherlist (text : List Char) (dictlines : List (List Char)) : List (List Char) :=
  sortDesc (fun w => (pipelineCands text dictlines w).length) (cipherlist text)

/-- The chain's words in processing order: the chain-creation loop wraps
the first sorted word innermost (next to the collector), so the guess
injected at the entry visits the sorted list in reverse. -/
def chainWords (text : List Char) (dictlines : List (List Char)) : List (List Char) :=
  (sortedCipherlist text dictlines).reverse

/-- Every guess `guesscollector` ever receives: the empty guess pushed
into the entry of the chain, propagated depth-first to the end. -/
def observedPipeline (text : List Char) (dictlines : List (List Char)) : List Mapping :=
  propagate (pipelineCands text dictlines) (chainWords text dictlines) []

/-- The resolution table of the whole run. -/
def resolutionPipeline (text : List Char) (dictlines : List (List Char)) : Mapping :=
  finaldict (observedPipeline text dictlines)

/-- The string printed by `guesscollector` on close: the original text
with the final substitutions applied. -/
def decrypt (text : List Char) (dictlines : List (List Char)) : List Char :=
  prettyprint text (resolutionPipeline text dictlines)

/-- A dict has no duplicate keys (invariant of Python dicts). -/
def NodupKeys (m : Mapping) : Prop := (m.map Prod.fst).Nodup

/-- A guess is injective: no two distinct cipher letters share a plain
letter. -/
def InjMapping (m : Mapping) : Prop :=
  ∀ x y q, alookup x m = some q → alookup y m = some q → x = y

/-- Two words have the same letter-repetition structure: same length, and
positions carry equal letters in one exactly when they do in the other. -/
def StructEq (w1 w2 : List Char) : Prop :=
  w1.length = w2.length ∧ ∀ i j : Nat, (w1.get? i = w1.get? j ↔ w2.get? i = w2.get? j)

/-- Invariant of every stage the pipeline builds: the stage's word is a
scrubbed (lowercase) word and its candidate bucket holds scrubbed words
of the same pattern signature. -/
def GoodStage (cands : List Char → List (List Char)) (w : List Char) : Prop :=
  (∀ ch ∈ w, ch ∈ asciiLowercase) ∧
    ∀ c ∈ cands w, getpatterntuple c = getpatterntuple w ∧ ∀ ch ∈ c, ch ∈ asciiLowercase

/-- Two guesses are semantically equal: they answer every lookup alike. -/
def SemEq (m₁ m₂ : Mapping) : Prop := ∀ x, alookup x m₁ = alookup x m₂

/-! ### Association-list (Python dict) lemmas -/

theorem alookup_pyInsert (m : Mapping) (k v x : Char) :
    alookup x (pyInsert m k v) = if k = x then some v else alookup x m := by
  induction m with
  | nil => simp [pyInsert, alookup]
  | cons hd tl ih =>
    obtain ⟨a, b⟩ := hd
    by_cases hak : a = k
    · subst hak
      simp only [pyInsert, if_pos rfl, alookup]
      by_cases hax : a = x <;> simp [hax]
    · by_cases hax : a = x
      · have hkx : ¬ k = x := fun h => hak (hax.trans h.symm)
        have hxk : ¬ x = k := fun h => hkx (Eq.symm h)
        simp [pyInsert, alookup, hak, hax, hkx, hxk]
      · simp [pyInsert, alookup, hak, hax, ih]

theorem alookup_extIns (l : List (Char × Char)) (m : Mapping) (x : Char) :
    alookup x (extIns m l) =
      match assignOf l x with
      | some v => some v
      | none => alookup x m := by
  induction l generalizing m with
  | nil => simp [extIns, assignOf]
  | cons hd tl ih =>
    obtain ⟨a, b⟩ := hd
    rw [extIns, ih]
    cases h : assignOf tl x with
    | some v => simp [assignOf, h]
    | none =>
      simp only [assignOf, h, alookup_pyInsert]
      by_cases hax : a = x <;> simp [hax]

theorem alookup_eq_none_iff {β : Type} (x : Char) (m : List (Char × β)) :
    alookup x m = none ↔ x ∉ m.map Prod.fst := by
  induction m with
  | nil => simp [alookup]
  | cons hd tl ih =>
    obtain ⟨a, b⟩ := hd
    by_cases h : a = x
    · subst h; simp [alookup]
    · have hxa : ¬ x = a := fun hh => h (Eq.symm hh)
      simp [alookup, h, ih, hxa]

theorem alookup_isSome_iff {β : Type} (x : Char) (m : List (Char × β)) :
    (alookup x m).isSome = true ↔ x ∈ m.map Prod.fst := by
  constructor
  · intro hs
    by_contra hmem
    rw [← alookup_eq_none_iff] at hmem
    rw [hmem] at hs
    simp at hs
  · intro hmem
    cases hh : alookup x m with
    | some v => simp
    | none => exact absurd ((alookup_eq_none_iff x m).mp hh) (by simp [hmem])

theorem mem_of_alookup_eq_some {β : Type} {x : Char} {q : β} {m : List (Char × β)}
    (h : alookup x m = some q) : (x, q) ∈ m := by
  induction m with
  | nil => simp [alookup] at h
  | cons hd tl ih =>
    obtain ⟨a, b⟩ := hd
    by_cases hax : a = x
    · subst hax
      simp [alookup] at h
      simp [h]
    · simp [alookup, hax] at h
      simp [ih h]

theorem alookup_eq_some_of_mem {β : Type} {x : Char} {q : β} {m : List (Char × β)}
    (hnd : (m.map Prod.fst).Nodup) (hmem : (x, q) ∈ m) : alookup x m = some q := by
  induction m with
  | nil => simp at hmem
  | cons hd tl ih =>
    obtain ⟨a, b⟩ := hd
    rw [List.map_cons, List.nodup_cons] at hnd
    rcases List.mem_cons.mp hmem with heq | htl
    · injection heq with h1 h2
      subst h1
      subst h2
      simp [alookup]
    · have hax : ¬ a = x := by
        intro h
        subst h
        exact hnd.1 (List.mem_map.mpr ⟨(a, q), htl, rfl⟩)
      simp only [alookup, if_neg hax]
      exact ih hnd.2 htl

theorem mem_mvalues_iff {q : Char} {m : Mapping} (hnd : NodupKeys m) :
    q ∈ mvalues m ↔ ∃ x, alookup x m = some q := by
  constructor
  · intro h
    obtain ⟨⟨x, q'⟩, hmem, hq⟩ := List.mem_map.mp h
    subst hq
    exact ⟨x, alookup_eq_some_of_mem hnd hmem⟩
  · rintro ⟨x, hx⟩
    exact List.mem_map.mpr ⟨(x, q), mem_of_alookup_eq_some hx, rfl⟩

theorem isEmpty_iff_alookup (m : Mapping) :
    m.isEmpty = true ↔ ∀ x, alookup x m = none := by
  cases m with
  | nil => simp [alookup]
  | cons hd tl =>
    obtain ⟨a, b⟩ := hd
    constructor
    · intro h
      simp at h
    · intro h
      have ha := h a
      simp [alookup] at ha

theorem keys_pyInsert (m : Mapping) (k v : Char) :
    (pyInsert m k v).map Prod.fst =
      if k ∈ m.map Prod.fst then m.map Prod.fst else m.map Prod.fst ++ [k] := by
  induction m with
  | nil => simp [pyInsert]
  | cons hd tl ih =>
    obtain ⟨a, b⟩ := hd
    by_cases hak : a = k
    · subst hak; simp [pyInsert]
    · have hka : ¬ k = a := fun h => hak (Eq.symm h)
      simp only [pyInsert, if_neg hak, List.map_cons, ih, List.mem_cons, hka, false_or]
      by_cases hk : k ∈ tl.map Prod.fst <;> simp [hk]

theorem nodupKeys_pyInsert {m : Mapping} (hnd : NodupKeys m) (k v : Char) :
    NodupKeys (pyInsert m k v) := by
  unfold NodupKeys at *
  rw [keys_pyInsert]
  by_cases hk : k ∈ m.map Prod.fst
  · simpa [hk]
  · simp only [hk, if_false]
    rw [List.nodup_append]
    exact ⟨hnd, List.nodup_singleton _, by simp [List.disjoint_singleton, hk]⟩

theorem nodupKeys_extIns {m : Mapping} (hnd : NodupKeys m) (l : List (Char × Char)) :
    NodupKeys (extIns m l) := by
  induction l generalizing m with
  | nil => simpa [extIns]
  | cons hd tl ih =>
    obtain ⟨a, b⟩ := hd
    exact ih (nodupKeys_pyInsert hnd a b)

theorem assignOf_eq_some_mem {l : List (Char × Char)} {x v : Char}
    (h : assignOf l x = some v) : (x, v) ∈ l := by
  induction l with
  | nil => simp [assignOf] at h
  | cons hd tl ih =>
    obtain ⟨a, b⟩ := hd
    rw [assignOf] at h
    cases htl : assignOf tl x with
    | some w =>
      rw [htl] at h
      simp at h
      subst h
      simp [ih htl]
    | none =>
      rw [htl] at h
      by_cases hax : a = x
      · subst hax
        simp at h
        simp [h]
      · simp [hax] at h

theorem assignOf_zip_eq_none_iff {w p : List Char} (hl : p.length = w.length) (x : Char) :
    assignOf (w.zip p) x = none ↔ x ∉ w := by
  induction w generalizing p with
  | nil => simp [assignOf]
  | cons a w' ih =>
    cases p with
    | nil => simp at hl
    | cons b p' =>
      simp only [List.length_cons, Nat.succ_inj] at hl
      rw [List.zip_cons_cons, assignOf]
      cases h : assignOf (w'.zip p') x with
      | some v =>
        have hx : x ∈ w' := by
          by_contra hxw
          exact absurd ((ih hl).mpr hxw) (by simp [h])
        simp [hx, List.mem_cons]
      | none =>
        have hx' : x ∉ w' := (ih hl).mp h
        by_cases hax : a = x
        · subst hax
          simp
        · have hxa : ¬ x = a := fun hh => hax (Eq.symm hh)
          simp [hax, hxa, hx']

/-! ### Pattern-signature lemmas -/

theorem patternAux_length (d : List (Char × Nat)) (s : List Char) :
    (patternAux d s).length = s.length := by
  induction s generalizing d with
  | nil => simp [patternAux]
  | cons c rest ih =>
    cases h : alookup c d with
    | some n => simp [patternAux, h, ih]
    | none => simp [patternAux, h, ih]

theorem alookup_append {β : Type} (x : Char) (d e : List (Char × β)) :
    alookup x (d ++ e) =
      match alookup x d with
      | some v => some v
      | none => alookup x e := by
  induction d with
  | nil => simp [alookup]
  | cons hd tl ih =>
    obtain ⟨a, b⟩ := hd
    by_cases hax : a = x <;> simp [alookup, hax, ih]

theorem alookup_buildDict_stable {x : Char} {n : Nat} {d : List (Char × Nat)}
    (s : List Char) (h : alookup x d = some n) :
    alookup x (buildDict d s) = some n := by
  induction s generalizing d with
  | nil => simpa [buildDict]
  | cons c rest ih =>
    cases hc : alookup c d with
    | some m =>
      simp only [buildDict, hc]
      exact ih h
    | none =>
      simp only [buildDict, hc]
      apply ih
      rw [alookup_append, h]

theorem alookup_buildDict_isSome {c : Char} {s : List Char} (hc : c ∈ s)
    (d : List (Char × Nat)) : (alookup c (buildDict d s)).isSome = true := by
  induction s generalizing d with
  | nil => simp at hc
  | cons a rest ih =>
    cases hmem : alookup a d with
    | some n =>
      simp only [buildDict, hmem]
      rcases List.mem_cons.mp hc with rfl | hc'
      · rw [alookup_buildDict_stable rest hmem]
        simp
      · exact ih hc' d
    | none =>
      simp only [buildDict, hmem]
      rcases List.mem_cons.mp hc with rfl | hc'
      · have hnew : alookup c (d ++ [(c, d.length + 1)]) = some (d.length + 1) := by
          rw [alookup_append, hmem]
          simp [alookup]
        rw [alookup_buildDict_stable rest hnew]
        simp
      · exact ih hc' _

theorem patternAux_eq_map (d : List (Char × Nat)) (s : List Char) :
    patternAux d s = s.map (fun c => (alookup c (buildDict d s)).getD 0) := by
  induction s generalizing d with
  | nil => simp [patternAux]
  | cons c rest ih =>
    cases hc : alookup c d with
    | some n =>
      simp only [patternAux, buildDict, hc, List.map_cons]
      rw [alookup_buildDict_stable rest hc]
      simp [ih d]
    | none =>
      have hnew : alookup c (d ++ [(c, d.length + 1)]) = some (d.length + 1) := by
        rw [alookup_append, hc]
        simp [alookup]
      simp only [patternAux, buildDict, hc, List.map_cons]
      rw [alookup_buildDict_stable rest hnew]
      simp [ih (d ++ [(c, d.length + 1)])]

theorem buildDict_inj_bounded (s : List Char) (d : List (Char × Nat))
    (hinj : ∀ x y n, alookup x d = some n → alookup y d = some n → x = y)
    (hbd : ∀ x n, alookup x d = some n → n ≤ d.length) :
    (∀ x y n, alookup x (buildDict d s) = some n → alookup y (buildDict d s) = some n → x = y) := by
  induction s generalizing d with
  | nil => simpa [buildDict]
  | cons c rest ih =>
    cases hc : alookup c d with
    | some m =>
      simp only [buildDict, hc]
      exact ih d hinj hbd
    | none =>
      simp only [buildDict, hc]
      apply ih
      · intro x y n hx hy
        rw [alookup_append] at hx hy
        cases hdx : alookup x d with
        | some vx =>
          rw [hdx] at hx
          cases hdy : alookup y d with
          | some vy =>
            rw [hdy] at hy
            exact hinj x y n (hdx.trans hx) (hdy.trans hy)
          | none =>
            rw [hdy] at hy
            by_cases hcy : c = y
            · simp [alookup, hcy] at hy
              have hxn : vx = n := by injection hx
              have := hbd x vx hdx
              omega
            · simp [alookup, hcy] at hy
        | none =>
          rw [hdx] at hx
          by_cases hcx : c = x
          · cases hdy : alookup y d with
            | some vy =>
              rw [hdy] at hy
              simp [alookup, hcx] at hx
              have hyn : vy = n := by injection hy
              have := hbd y vy hdy
              omega
            | none =>
              rw [hdy] at hy
              by_cases hcy : c = y
              · rw [← hcx, ← hcy]
              · simp [alookup, hcy] at hy
          · simp [alookup, hcx] at hx
      · intro x n hx
        rw [alookup_append] at hx
        cases hdx : alookup x d with
        | some vx =>
          rw [hdx] at hx
          have hvn : vx = n := by injection hx
          have := hbd x vx hdx
          simp only [List.length_append, List.length_cons, List.length_nil]
          omega
        | none =>
          rw [hdx] at hx
          by_cases hcx : c = x
          · simp [alookup, hcx] at hx
            simp only [List.length_append, List.length_cons, List.length_nil]
            omega
          · simp [alookup, hcx] at hx

theorem patternAux_structure (s : List Char) (i j : Nat) :
    (patternAux [] s).get? i = (patternAux [] s).get? j ↔ s.get? i = s.get? j := by
  have hinj := buildDict_inj_bounded s []
    (by intro x y n hx hy; simp [alookup] at hx)
    (by intro x n hx; simp [alookup] at hx)
  rw [patternAux_eq_map, List.get?_map, List.get?_map]
  cases hi : s.get? i with
  | none =>
    cases hj : s.get? j with
    | none => simp
    | some cj => simp
  | some ci =>
    cases hj : s.get? j with
    | none => simp
    | some cj =>
      simp only [Option.map_some']
      constructor
      · intro h
        have hfeq : (alookup ci (buildDict [] s)).getD 0 = (alookup cj (buildDict [] s)).getD 0 := by
          injection h
        have hci : ci ∈ s := List.get?_mem hi
        have hcj : cj ∈ s := List.get?_mem hj
        obtain ⟨ni, hni⟩ := Option.isSome_iff_exists.mp (alookup_buildDict_isSome hci [])
        obtain ⟨nj, hnj⟩ := Option.isSome_iff_exists.mp (alookup_buildDict_isSome hcj [])
        rw [hni, hnj] at hfeq
        simp at hfeq
        subst hfeq
        rw [hinj ci cj ni hni hnj]
      · intro h
        have : ci = cj := by injection h
        rw [this]

theorem patternAux_congr_structEq :
    ∀ (s1 : List Char) (s2 : List Char) (d1 d2 : List (Char × Nat)),
      s1.length = s2.length →
      d1.length = d2.length →
      (∀ i c1 c2, s1.get? i = some c1 → s2.get? i = some c2 → alookup c1 d1 = alookup c2 d2) →
      (∀ i j, s1.get? i = s1.get? j ↔ s2.get? i = s2.get? j) →
      patternAux d1 s1 = patternAux d2 s2 := by
  intro s1
  induction s1 with
  | nil =>
    intro s2 d1 d2 hlen _ _ _
    cases s2 with
    | nil => rfl
    | cons a t => simp at hlen
  | cons c1 t1 ih =>
    intro s2 d1 d2 hlen hd hlk hst
    cases s2 with
    | nil => simp at hlen
    | cons c2 t2 =>
      simp only [List.length_cons, Nat.succ_inj] at hlen
      have hlk0 : alookup c1 d1 = alookup c2 d2 := hlk 0 c1 c2 rfl rfl
      cases h0 : alookup c1 d1 with
      | some n =>
        have h0' : alookup c2 d2 = some n := by rw [← hlk0, h0]
        simp only [patternAux, h0, h0']
        rw [ih t2 d1 d2 hlen hd
          (fun i a1 a2 h1 h2 => hlk (i + 1) a1 a2 h1 h2)
          (fun i j => hst (i + 1) (j + 1))]
      | none =>
        have h0' : alookup c2 d2 = none := by rw [← hlk0, h0]
        simp only [patternAux, h0, h0', hd]
        refine congrArg (List.cons (d2.length + 1)) ?_
        apply ih t2 _ _ hlen (by simp [hd])
        · intro i a1 a2 h1 h2
          rw [alookup_append, alookup_append]
          have base := hlk (i + 1) a1 a2 h1 h2
          cases hv : alookup a1 d1 with
          | some v =>
            have : alookup a2 d2 = some v := by rw [← base, hv]
            rw [this]
          | none =>
            have hv' : alookup a2 d2 = none := by rw [← base, hv]
            rw [hv']
            have hiff := hst 0 (i + 1)
            simp only [List.get?_cons_zero, List.get?_cons_succ] at hiff
            rw [h1, h2] at hiff
            by_cases hc1 : c1 = a1
            · have hc2 : c2 = a2 := by
                have := hiff.mp (by rw [hc1])
                injection this
              simp [alookup, hc1, hc2, hd]
            · have hc2 : ¬ c2 = a2 := by
                intro hcc
                exact hc1 (by injection hiff.mpr (by rw [hcc]))
              simp [alookup, hc1, hc2]
        · intro i j
          exact hst (i + 1) (j + 1)

theorem patternAux_eq_iff_structEq (s1 s2 : List Char) :
    patternAux [] s1 = patternAux [] s2 ↔ StructEq s1 s2 := by
  constructor
  · intro h
    refine ⟨?_, ?_⟩
    · have := congrArg List.length h
      rwa [patternAux_length, patternAux_length] at this
    · intro i j
      rw [← patternAux_structure s1 i j, ← patternAux_structure s2 i j, h]
  · rintro ⟨hlen, hst⟩
    exact patternAux_congr_structEq s1 s2 [] [] hlen rfl
      (fun i c1 c2 _ _ => rfl) hst

theorem toLower_fixed_of_ascii : ∀ ch ∈ asciiLowercase, ch.toLower = ch := by decide

theorem map_toLower_fixed {w : List Char} (hw : ∀ c ∈ w, c.toLower = c) :
    w.map Char.toLower = w := by
  induction w with
  | nil => rfl
  | cons a t ih =>
    simp only [List.map_cons]
    rw [hw a (by simp), ih (fun c hc => hw c (by simp [hc]))]

theorem getpatterntuple_of_lower {w : List Char} (hw : ∀ c ∈ w, c.toLower = c) :
    getpatterntuple w = patternAux [] w := by
  unfold getpatterntuple
  rw [map_toLower_fixed hw]

theorem structEq_bijection {w1 w2 : List Char} (h : StructEq w1 w2) :
    ∃ f : Char → Char, Set.InjOn f {c | c ∈ w1} ∧ w1.map f = w2 := by
  obtain ⟨hlen, hst⟩ := h
  refine ⟨fun c => if hc : c ∈ w1 then (w2.get? (List.indexOf c w1)).getD c else c, ?_, ?_⟩
  · intro a ha b hb hfe
    simp only [Set.mem_setOf_eq] at ha hb
    dsimp only at hfe
    rw [dif_pos ha, dif_pos hb] at hfe
    have hja : w1.get? (List.indexOf a w1) = some a := List.indexOf_get? ha
    have hjb : w1.get? (List.indexOf b w1) = some b := List.indexOf_get? hb
    have hjalt : List.indexOf a w1 < w2.length := hlen ▸ List.indexOf_lt_length.mpr ha
    have hjblt : List.indexOf b w1 < w2.length := hlen ▸ List.indexOf_lt_length.mpr hb
    rw [List.get?_eq_get hjalt, List.get?_eq_get hjblt] at hfe
    simp only [Option.getD_some] at hfe
    have h2 : w2.get? (List.indexOf a w1) = w2.get? (List.indexOf b w1) := by
      rw [List.get?_eq_get hjalt, List.get?_eq_get hjblt, hfe]
    have h1 := (hst (List.indexOf a w1) (List.indexOf b w1)).mpr h2
    rw [hja, hjb] at h1
    injection h1
  · refine List.ext_get?_iff.mpr ?_
    intro n
    rw [List.get?_map]
    cases hn : w1.get? n with
    | none =>
      have h1 : w1.length ≤ n := List.get?_eq_none.mp hn
      have h2 : w2.get? n = none := List.get?_eq_none.mpr (hlen.symm.trans_le h1)
      rw [h2]
      rfl
    | some c =>
      have hc : c ∈ w1 := List.get?_mem hn
      simp only [Option.map_some']
      rw [dif_pos hc]
      have hj : w1.get? (List.indexOf c w1) = some c := List.indexOf_get? hc
      have h2 : w2.get? (List.indexOf c w1) = w2.get? n :=
        (hst (List.indexOf c w1) n).mp (by rw [hj, hn])
      obtain ⟨hlt, hget⟩ := List.get?_eq_some.mp hn
      have hnlt : n < w2.length := hlen ▸ hlt
      rw [h2, List.get?_eq_get hnlt]
      simp

theorem bijection_structEq {w1 w2 : List Char} {f : Char → Char}
    (hinj : Set.InjOn f {c | c ∈ w1}) (hmap : w1.map f = w2) : StructEq w1 w2 := by
  subst hmap
  refine ⟨by simp, ?_⟩
  intro i j
  rw [List.get?_map, List.get?_map]
  cases hi : w1.get? i with
  | none =>
    cases hj : w1.get? j with
    | none => simp
    | some cj => simp
  | some ci =>
    cases hj : w1.get? j with
    | none => simp
    | some cj =>
      simp only [Option.map_some']
      constructor
      · intro h
        have : ci = cj := by injection h
        rw [this]
      · intro h
        have hfe : f ci = f cj := by injection h
        have : ci = cj :=
          hinj (Set.mem_setOf_eq ▸ List.get?_mem hi) (Set.mem_setOf_eq ▸ List.get?_mem hj) hfe
        rw [this]

/-! ### Word-matcher lemmas -/

theorem ascii_ne_newline : ∀ ch ∈ asciiLowercase, ch ≠ '\n' := by decide

theorem mem_zip_get? {w p : List Char} {a b : Char} (h : (a, b) ∈ w.zip p) :
    ∃ i, w.get? i = some a ∧ p.get? i = some b := by
  induction w generalizing p with
  | nil => simp at h
  | cons c w' ih =>
    cases p with
    | nil => simp at h
    | cons d p' =>
      rw [List.zip_cons_cons] at h
      rcases List.mem_cons.mp h with heq | htl
      · injection heq with h1 h2
        exact ⟨0, by simp [h1, h2]⟩
      · obtain ⟨i, hw, hp⟩ := ih htl
        exact ⟨i + 1, by simpa using hw, by simpa using hp⟩

theorem get?_zip_eq {w p : List Char} {i : Nat} {a b : Char}
    (hw : w.get? i = some a) (hp : p.get? i = some b) : (w.zip p).get? i = some (a, b) := by
  induction w generalizing p i with
  | nil => simp at hw
  | cons c w' ih =>
    cases p with
    | nil => simp at hp
    | cons d p' =>
      cases i with
      | zero =>
        simp only [List.get?_cons_zero] at hw hp
        injection hw with hw'
        injection hp with hp'
        simp [hw', hp']
      | succ n =>
        simp only [List.get?_cons_succ] at hw hp
        simpa using ih hw hp

theorem regexMatches_iff {w p : List Char} {S : Mapping} :
    regexMatches w S p = true ↔
      p.length = w.length ∧
        ∀ i ci pi, w.get? i = some ci → p.get? i = some pi → atomMatches S ci pi = true := by
  rw [regexMatches, Bool.and_eq_true, decide_eq_true_eq, List.all_eq_true]
  constructor
  · rintro ⟨hlen, hall⟩
    refine ⟨hlen, ?_⟩
    intro i ci pi hci hpi
    apply hall (ci, pi)
    exact List.get?_mem (get?_zip_eq hci hpi)
  · rintro ⟨hlen, hpos⟩
    refine ⟨hlen, ?_⟩
    rintro ⟨ci, pi⟩ hmem
    obtain ⟨i, hci, hpi⟩ := mem_zip_get? hmem
    exact hpos i ci pi hci hpi

theorem wildMatches_iff_of_ascii {S : Mapping} {pi : Char} (hnd : NodupKeys S)
    (hpi : pi ∈ asciiLowercase) :
    wildMatches S pi = true ↔ ∀ y q, alookup y S = some q → pi ≠ q := by
  by_cases hS : S.isEmpty
  · constructor
    · intro _ y q hy
      rw [(isEmpty_iff_alookup S).mp hS y] at hy
      cases hy
    · intro _
      simp [wildMatches, hS, ascii_ne_newline pi hpi]
  · have hSf : S.isEmpty = false := by
      revert hS
      cases S.isEmpty <;> simp
    simp only [wildMatches, hSf, Bool.false_eq_true, if_false, decide_eq_true_eq]
    rw [mem_mvalues_iff hnd]
    constructor
    · intro h y q hy hpq
      exact h ⟨y, hpq ▸ hy⟩
    · rintro h ⟨y, hy⟩
      exact h y pi hy rfl

theorem assignOf_zip_exists {w p : List Char} (hl : p.length = w.length) {x : Char}
    (hx : x ∈ w) : ∃ j, w.get? j = some x ∧ assignOf (w.zip p) x = p.get? j := by
  induction w generalizing p with
  | nil => simp at hx
  | cons a w' ih =>
    cases p with
    | nil => simp at hl
    | cons b p' =>
      simp only [List.length_cons, Nat.succ_inj] at hl
      rw [List.zip_cons_cons, assignOf]
      cases h : assignOf (w'.zip p') x with
      | some v =>
        have hx' : x ∈ w' := by
          by_contra hxw
          exact absurd ((assignOf_zip_eq_none_iff hl x).mpr hxw) (by simp [h])
        obtain ⟨j, hwj, hpj⟩ := ih hl hx'
        exact ⟨j + 1, by simpa using hwj, by simpa [h] using hpj⟩
      | none =>
        have hx' : x ∉ w' := (assignOf_zip_eq_none_iff hl x).mp h
        have hax : a = x := by
          rcases List.mem_cons.mp hx with h1 | h2
          · exact h1.symm
          · exact absurd h2 hx'
        exact ⟨0, by simp [hax], by simp [hax]⟩

theorem assignOf_zip_get? {w p : List Char} (hl : p.length = w.length)
    (hiff : ∀ i j, w.get? i = w.get? j ↔ p.get? i = p.get? j)
    {i : Nat} {ci : Char} (hi : w.get? i = some ci) :
    assignOf (w.zip p) ci = p.get? i := by
  have hci : ci ∈ w := List.get?_mem hi
  obtain ⟨j, hwj, hpj⟩ := assignOf_zip_exists hl hci
  rw [hpj]
  exact (hiff j i).mp (by rw [hwj, hi])

theorem alookup_newguessFor_pos {w p : List Char} {S : Mapping} (hl : p.length = w.length)
    (hiff : ∀ i j, w.get? i = w.get? j ↔ p.get? i = p.get? j)
    {i : Nat} {ci : Char} (hi : w.get? i = some ci) :
    alookup ci (newguessFor w p S) = p.get? i := by
  rw [newguessFor, alookup_extIns, assignOf_zip_get? hl hiff hi]
  obtain ⟨hlt, _⟩ := List.get?_eq_some.mp hi
  have hplt : i < p.length := by omega
  rw [List.get?_eq_get hplt]

theorem alookup_newguessFor_neg {w p : List Char} {S : Mapping} (hl : p.length = w.length)
    {x : Char} (hx : x ∉ w) : alookup x (newguessFor w p S) = alookup x S := by
  rw [newguessFor, alookup_extIns, (assignOf_zip_eq_none_iff hl x).mpr hx]

theorem alookup_newguessFor_agree {w p : List Char} {S : Mapping}
    (hmatch : regexMatches w S p = true) {x q : Char} (hq : alookup x S = some q) :
    alookup x (newguessFor w p S) = some q := by
  rw [newguessFor, alookup_extIns]
  cases h : assignOf (w.zip p) x with
  | none => exact hq
  | some v =>
    obtain ⟨i, hwi, hpi⟩ := mem_zip_get? (assignOf_eq_some_mem h)
    have hatom := (regexMatches_iff.mp hmatch).2 i x v hwi hpi
    rw [atomMatches, hq] at hatom
    simp only [decide_eq_true_eq] at hatom
    rw [hatom]

theorem alookup_newguessFor_cases {w p : List Char} {S : Mapping} {x q : Char}
    (h : alookup x (newguessFor w p S) = some q) :
    alookup x S = some q ∨
      (assignOf (w.zip p) x = some q ∧ ∃ i, w.get? i = some x ∧ p.get? i = some q) := by
  rw [newguessFor, alookup_extIns] at h
  cases ha : assignOf (w.zip p) x with
  | none =>
    rw [ha] at h
    exact Or.inl h
  | some v =>
    rw [ha] at h
    have h' : some v = some q := h
    have hvq : v = q := by injection h'
    obtain ⟨i, hwi, hpi⟩ := mem_zip_get? (assignOf_eq_some_mem ha)
    exact Or.inr ⟨h', i, hwi, hpi.trans (congrArg some hvq)⟩

theorem isEmpty_false_of_alookup {S : Mapping} {x q : Char} (h : alookup x S = some q) :
    S.isEmpty = false := by
  cases hS : S.isEmpty
  · rfl
  · rw [(isEmpty_iff_alookup S).mp hS x] at h
    cases h

theorem newguessFor_inj {w p : List Char} {S : Mapping} (hnd : NodupKeys S)
    (hinj : InjMapping S) (hl : p.length = w.length)
    (hiff : ∀ i j, w.get? i = w.get? j ↔ p.get? i = p.get? j)
    (hmatch : regexMatches w S p = true) :
    InjMapping (newguessFor w p S) := by
  have main : ∀ x y q, alookup y (newguessFor w p S) = some q →
      alookup x S = some q → alookup y S = none → False := by
    intro x y q hy hxS hyS
    rcases alookup_newguessFor_cases hy with hyS' | ⟨_, j, hwj, hpj⟩
    · rw [hyS] at hyS'
      cases hyS'
    · have hatom := (regexMatches_iff.mp hmatch).2 j y q hwj hpj
      rw [atomMatches, hyS, wildMatches, isEmpty_false_of_alookup hxS] at hatom
      simp at hatom
      exact hatom ((mem_mvalues_iff hnd).mpr ⟨x, hxS⟩)
  intro x y q hx hy
  cases hxS : alookup x S with
  | some vx =>
    have hx' := alookup_newguessFor_agree hmatch hxS
    rw [hx] at hx'
    injection hx' with hv
    cases hyS : alookup y S with
    | some vy =>
      have hy' := alookup_newguessFor_agree hmatch hyS
      rw [hy] at hy'
      injection hy' with hv'
      exact hinj x y q (by rw [hxS, hv]) (by rw [hyS, hv'])
    | none => exact (main x y q hy (by rw [hxS, hv]) hyS).elim
  | none =>
    cases hyS : alookup y S with
    | some vy =>
      have hy' := alookup_newguessFor_agree hmatch hyS
      rw [hy] at hy'
      injection hy' with hv'
      exact (main y x q hx (by rw [hyS, hv']) hxS).elim
    | none =>
      rcases alookup_newguessFor_cases hx with hxS' | ⟨_, i, hwi, hpi⟩
      · rw [hxS] at hxS'
        cases hxS'
      · rcases alookup_newguessFor_cases hy with hyS' | ⟨_, j, hwj, hpj⟩
        · rw [hyS] at hyS'
          cases hyS'
        · have hpij : p.get? i = p.get? j := by rw [hpi, hpj]
          have hwij := (hiff i j).mpr hpij
          rw [hwi, hwj] at hwij
          exact Option.some.inj hwij

theorem mem_guesserStep {w : List Char} {cands : List (List Char)} {S m : Mapping} :
    m ∈ guesserStep w cands S ↔
      ∃ p, p ∈ cands ∧ regexMatches w S p = true ∧ m = newguessFor w p S := by
  rw [guesserStep, List.mem_map]
  constructor
  · rintro ⟨p, hp, hm⟩
    rw [List.mem_filter] at hp
    exact ⟨p, hp.1, hp.2, hm.symm⟩
  · rintro ⟨p, hp, hmat, hm⟩
    exact ⟨p, List.mem_filter.mpr ⟨hp, hmat⟩, hm.symm⟩

theorem structEq_of_sig {w p : List Char}
    (hw : ∀ ch ∈ w, ch ∈ asciiLowercase) (hp : ∀ ch ∈ p, ch ∈ asciiLowercase)
    (hsig : getpatterntuple p = getpatterntuple w) :
    p.length = w.length ∧ ∀ i j, w.get? i = w.get? j ↔ p.get? i = p.get? j := by
  rw [getpatterntuple_of_lower (fun c hc => toLower_fixed_of_ascii c (hp c hc)),
    getpatterntuple_of_lower (fun c hc => toLower_fixed_of_ascii c (hw c hc))] at hsig
  obtain ⟨hlen, hiff⟩ := (patternAux_eq_iff_structEq p w).mp hsig
  exact ⟨hlen, fun i j => (hiff i j).symm⟩

/-! ### Chain-propagation lemmas -/

theorem propagate_inv {cands : List Char → List (List Char)} :
    ∀ (ws : List (List Char)) (S : Mapping),
      (∀ w ∈ ws, GoodStage cands w) → NodupKeys S → InjMapping S →
      ∀ m ∈ propagate cands ws S, NodupKeys m ∧ InjMapping m := by
  intro ws
  induction ws with
  | nil =>
    intro S _ hnd hinj m hm
    simp only [propagate, List.mem_singleton] at hm
    subst hm
    exact ⟨hnd, hinj⟩
  | cons w rest ih =>
    intro S hgood hnd hinj m hm
    simp only [propagate, List.mem_flatMap] at hm
    obtain ⟨m1, hm1, hm2⟩ := hm
    obtain ⟨p, hp, hmat, hdef⟩ := mem_guesserStep.mp hm1
    obtain ⟨hw, hcands⟩ := hgood w (by simp)
    obtain ⟨hsig, hpascii⟩ := hcands p hp
    obtain ⟨hl, hiff⟩ := structEq_of_sig hw hpascii hsig
    subst hdef
    have hnd1 : NodupKeys (newguessFor w p S) := nodupKeys_extIns hnd _
    have hinj1 := newguessFor_inj hnd hinj hl hiff hmat
    exact ih _ (fun w' hw' => hgood w' (by simp [hw'])) hnd1 hinj1 m hm2

theorem flatMap_nil_of_all {α β : Type} (f : α → List β) :
    ∀ l : List α, (∀ a ∈ l, f a = []) → l.flatMap f = [] := by
  intro l
  induction l with
  | nil => intro _; rfl
  | cons a t ih =>
    intro h
    rw [List.flatMap_cons, h a (by simp), List.nil_append]
    exact ih (fun a' ha' => h a' (by simp [ha']))

theorem propagate_empty_cands {cands : List Char → List (List Char)}
    {ws : List (List Char)} (h : ∃ w ∈ ws, cands w = []) :
    ∀ S, propagate cands ws S = [] := by
  induction ws with
  | nil => simp at h
  | cons w rest ih =>
    intro S
    obtain ⟨w', hw', hc⟩ := h
    rcases List.mem_cons.mp hw' with heq | htl
    · subst heq
      simp [propagate, guesserStep, hc]
    · simp only [propagate]
      have hall : ∀ m ∈ guesserStep w (cands w) S, propagate cands rest m = [] :=
        fun m _ => ih ⟨w', htl, hc⟩ m
      exact flatMap_nil_of_all _ _ hall

theorem semEq_symm {S S' : Mapping} (h : SemEq S S') : SemEq S' S :=
  fun x => (h x).symm

theorem semEq_isEmpty {S S' : Mapping} (h : SemEq S S') : S.isEmpty = S'.isEmpty := by
  cases hS : S.isEmpty with
  | true =>
    have hnone := (isEmpty_iff_alookup S).mp hS
    have h2 : ∀ x, alookup x S' = none := fun x => (h x).symm.trans (hnone x)
    exact ((isEmpty_iff_alookup S').mpr h2).symm
  | false =>
    cases hS' : S'.isEmpty with
    | true =>
      have hnone := (isEmpty_iff_alookup S').mp hS'
      have h2 : ∀ x, alookup x S = none := fun x => (h x).trans (hnone x)
      rw [(isEmpty_iff_alookup S).mpr h2] at hS
      cases hS
    | false => rfl

theorem semEq_regexMatches {w p : List Char} {S S' : Mapping} (h : SemEq S S')
    (hnd : NodupKeys S) (hnd' : NodupKeys S') :
    regexMatches w S p = regexMatches w S' p := by
  have hatom : ∀ a b : Char, atomMatches S a b = atomMatches S' a b := by
    intro a b
    unfold atomMatches wildMatches
    rw [h a, semEq_isEmpty h]
    cases alookup a S' with
    | some v => rfl
    | none =>
      cases hE : S'.isEmpty with
      | true => rfl
      | false =>
        simp only [Bool.false_eq_true, if_false]
        refine decide_eq_decide.mpr ?_
        constructor
        · intro hb hb'
          exact hb (((mem_mvalues_iff hnd).mpr (by
            obtain ⟨y, hy⟩ := (mem_mvalues_iff hnd').mp hb'
            exact ⟨y, (h y).trans hy⟩)))
        · intro hb hb'
          exact hb (((mem_mvalues_iff hnd').mpr (by
            obtain ⟨y, hy⟩ := (mem_mvalues_iff hnd).mp hb'
            exact ⟨y, (h y).symm.trans hy⟩)))
  unfold regexMatches
  congr 1
  induction w.zip p with
  | nil => rfl
  | cons hd tl ih => simp [List.all_cons, hatom hd.1 hd.2, ih]

theorem semEq_newguessFor {w p : List Char} {S S' : Mapping} (h : SemEq S S') :
    SemEq (newguessFor w p S) (newguessFor w p S') := by
  intro x
  rw [newguessFor, newguessFor, alookup_extIns, alookup_extIns]
  cases assignOf (w.zip p) x with
  | some v => rfl
  | none => exact h x

theorem propagate_obs_mono {cands : List Char → List (List Char)} :
    ∀ (ws : List (List Char)) (S S' : Mapping), SemEq S S' → NodupKeys S → NodupKeys S' →
      ∀ x q, (∃ m ∈ propagate cands ws S, alookup x m = some q) →
        ∃ m ∈ propagate cands ws S', alookup x m = some q := by
  intro ws
  induction ws with
  | nil =>
    intro S S' h hnd hnd' x q hex
    simp only [propagate, List.mem_singleton] at hex ⊢
    obtain ⟨m, hm, hxq⟩ := hex
    subst hm
    exact ⟨S', rfl, (h x).symm.trans hxq⟩
  | cons w rest ih =>
    intro S S' h hnd hnd' x q hex
    simp only [propagate, List.mem_flatMap] at hex ⊢
    obtain ⟨m, ⟨m1, hm1, hmrest⟩, hxq⟩ := hex
    obtain ⟨p, hp, hmat, hdef⟩ := mem_guesserStep.mp hm1
    subst hdef
    have hmat' : regexMatches w S' p = true := by
      rw [← semEq_regexMatches h hnd hnd']
      exact hmat
    have hsem := semEq_newguessFor (w := w) (p := p) h
    have hnd1 : NodupKeys (newguessFor w p S) := nodupKeys_extIns hnd _
    have hnd1' : NodupKeys (newguessFor w p S') := nodupKeys_extIns hnd' _
    obtain ⟨m', hm', hxq'⟩ := ih _ _ hsem hnd1 hnd1' x q ⟨m, hmrest, hxq⟩
    exact ⟨m', ⟨newguessFor w p S', mem_guesserStep.mpr ⟨p, hp, hmat', rfl⟩, hm'⟩, hxq'⟩

theorem alookup_newguessFor_eq {w p : List Char} {S : Mapping} (x : Char) :
    alookup x (newguessFor w p S) =
      match assignOf (w.zip p) x with
      | some u => some u
      | none => alookup x S := by
  rw [newguessFor]
  exact alookup_extIns _ _ _

theorem swap_stages {S : Mapping} {w v c d : List Char}
    (hndS : NodupKeys S)
    (hca : ∀ ch ∈ c, ch ∈ asciiLowercase) (hda : ∀ ch ∈ d, ch ∈ asciiLowercase)
    (hlc : c.length = w.length) (hiffc : ∀ i j, w.get? i = w.get? j ↔ c.get? i = c.get? j)
    (hld : d.length = v.length) (hiffd : ∀ i j, v.get? i = v.get? j ↔ d.get? i = d.get? j)
    (hmc : regexMatches w S c = true)
    (hmd : regexMatches v (newguessFor w c S) d = true) :
    regexMatches v S d = true ∧
      regexMatches w (newguessFor v d S) c = true ∧
      SemEq (newguessFor v d (newguessFor w c S)) (newguessFor w c (newguessFor v d S)) := by
  have hndT1 : NodupKeys (newguessFor w c S) := nodupKeys_extIns hndS _
  have hatomc := (regexMatches_iff.mp hmc).2
  have hatomd := (regexMatches_iff.mp hmd).2
  have hfreshc : ∀ i ci qi, w.get? i = some ci → c.get? i = some qi → alookup ci S = none →
      ∀ y q', alookup y S = some q' → qi ≠ q' := by
    intro i ci qi hwi hci hciS
    have h := hatomc i ci qi hwi hci
    rw [atomMatches, hciS] at h
    exact (wildMatches_iff_of_ascii hndS (hca qi (List.get?_mem hci))).mp h
  have hfreshd1 : ∀ j y q', v.get? j = some y → d.get? j = some q' →
      alookup y (newguessFor w c S) = none →
      ∀ z r, alookup z (newguessFor w c S) = some r → q' ≠ r := by
    intro j y q' hvj hdj hT1
    have h := hatomd j y q' hvj hdj
    rw [atomMatches, hT1] at h
    exact (wildMatches_iff_of_ascii hndT1 (hda q' (List.get?_mem hdj))).mp h
  have hmapc : ∀ i ci qi r, w.get? i = some ci → c.get? i = some qi →
      alookup ci S = some r → qi = r := by
    intro i ci qi r hwi hci hciS
    have h := hatomc i ci qi hwi hci
    rw [atomMatches, hciS] at h
    simpa using h
  have hmapd1 : ∀ j y q' r, v.get? j = some y → d.get? j = some q' →
      alookup y (newguessFor w c S) = some r → q' = r := by
    intro j y q' r hvj hdj hyT1
    have h := hatomd j y q' hvj hdj
    rw [atomMatches, hyT1] at h
    simpa using h
  have goal1 : regexMatches v S d = true := by
    rw [regexMatches_iff]
    refine ⟨hld, ?_⟩
    intro j y q' hvj hdj
    cases hyS : alookup y S with
    | some r =>
      rw [atomMatches, hyS]
      have hyT1 : alookup y (newguessFor w c S) = some r := alookup_newguessFor_agree hmc hyS
      have hq : q' = r := hmapd1 j y q' r hvj hdj hyT1
      simp [hq]
    | none =>
      rw [atomMatches, hyS]
      apply (wildMatches_iff_of_ascii hndS (hda q' (List.get?_mem hdj))).mpr
      intro z r hz
      cases hyT1 : alookup y (newguessFor w c S) with
      | some u =>
        have hq'u : q' = u := hmapd1 j y q' u hvj hdj hyT1
        rcases alookup_newguessFor_cases hyT1 with hyS' | ⟨_, i, hwi, hci⟩
        · rw [hyS] at hyS'
          cases hyS'
        · have hne := hfreshc i y u hwi hci hyS z r hz
          rw [hq'u]
          exact hne
      | none =>
        have hzT1 : alookup z (newguessFor w c S) = some r := alookup_newguessFor_agree hmc hz
        exact hfreshd1 j y q' hvj hdj hyT1 z r hzT1
  have hndT2 : NodupKeys (newguessFor v d S) := nodupKeys_extIns hndS _
  have goal2 : regexMatches w (newguessFor v d S) c = true := by
    rw [regexMatches_iff]
    refine ⟨hlc, ?_⟩
    intro i ci qi hwi hci
    cases hT2 : alookup ci (newguessFor v d S) with
    | some r =>
      rw [atomMatches, hT2]
      suffices h : qi = r by simp [h]
      rcases alookup_newguessFor_cases hT2 with hciS | ⟨_, j, hvj, hdj⟩
      · exact hmapc i ci qi r hwi hci hciS
      · cases hciS : alookup ci S with
        | some r2 =>
          have hagr : alookup ci (newguessFor v d S) = some r2 :=
            alookup_newguessFor_agree goal1 hciS
          rw [hT2] at hagr
          have hr : r = r2 := by injection hagr
          exact (hmapc i ci qi r2 hwi hci hciS).trans hr.symm
        | none =>
          have hciT1 : alookup ci (newguessFor w c S) = some qi := by
            rw [alookup_newguessFor_pos hlc hiffc hwi, hci]
          exact (hmapd1 j ci r qi hvj hdj hciT1).symm
    | none =>
      rw [atomMatches, hT2]
      apply (wildMatches_iff_of_ascii hndT2 (hca qi (List.get?_mem hci))).mpr
      intro y q' hy
      have hciS : alookup ci S = none := by
        cases hc2 : alookup ci S with
        | none => rfl
        | some r2 =>
          have hagr := alookup_newguessFor_agree goal1 hc2
          rw [hT2] at hagr
          cases hagr
      rcases alookup_newguessFor_cases hy with hyS | ⟨_, j, hvj, hdj⟩
      · exact hfreshc i ci qi hwi hci hciS y q' hyS
      · cases hyS : alookup y S with
        | some r2 =>
          have hyT1 : alookup y (newguessFor w c S) = some r2 :=
            alookup_newguessFor_agree hmc hyS
          have hq' : q' = r2 := hmapd1 j y q' r2 hvj hdj hyT1
          have hne := hfreshc i ci qi hwi hci hciS y r2 hyS
          rw [hq']
          exact hne
        | none =>
          cases hyT1 : alookup y (newguessFor w c S) with
          | some r =>
            have hq' : q' = r := hmapd1 j y q' r hvj hdj hyT1
            rcases alookup_newguessFor_cases hyT1 with hyS' | ⟨_, i2, hwi2, hci2⟩
            · rw [hyS] at hyS'
              cases hyS'
            · intro hqq
              have hcc : c.get? i = c.get? i2 := by rw [hci, hci2, hqq, hq']
              have hww := (hiffc i i2).mpr hcc
              rw [hwi, hwi2] at hww
              have hciy : ci = y := Option.some.inj hww
              rw [hciy] at hT2
              rw [hT2] at hy
              cases hy
          | none =>
            have hciT1 : alookup ci (newguessFor w c S) = some qi := by
              rw [alookup_newguessFor_pos hlc hiffc hwi, hci]
            exact (hfreshd1 j y q' hvj hdj hyT1 ci qi hciT1).symm
  refine ⟨goal1, goal2, ?_⟩
  intro x
  simp only [alookup_newguessFor_eq]
  cases hAv : assignOf (v.zip d) x with
  | none =>
    cases hAw : assignOf (w.zip c) x with
    | none => rfl
    | some cv => rfl
  | some dv =>
    cases hAw : assignOf (w.zip c) x with
    | none => rfl
    | some cv =>
      obtain ⟨i, hwi, hci⟩ := mem_zip_get? (assignOf_eq_some_mem hAw)
      obtain ⟨j, hvj, hdj⟩ := mem_zip_get? (assignOf_eq_some_mem hAv)
      have hxT1 : alookup x (newguessFor w c S) = some cv := by
        rw [alookup_newguessFor_pos hlc hiffc hwi, hci]
      have hdc : dv = cv := hmapd1 j x dv cv hvj hdj hxT1
      rw [hdc]

theorem propagate_obs_swap {cands : List Char → List (List Char)} (l : List (List Char))
    (u t : List Char) (S : Mapping) (hgu : GoodStage cands u) (hgt : GoodStage cands t)
    (hnd : NodupKeys S) (x q : Char)
    (hex : ∃ m ∈ propagate cands (u :: t :: l) S, alookup x m = some q) :
    ∃ m ∈ propagate cands (t :: u :: l) S, alookup x m = some q := by
  simp only [propagate, List.mem_flatMap] at hex ⊢
  obtain ⟨m, ⟨m1, hm1, m2, hm2, hmrest⟩, hxq⟩ := hex
  obtain ⟨c, hc, hmat1, hdef1⟩ := mem_guesserStep.mp hm1
  subst hdef1
  obtain ⟨d, hd, hmat2, hdef2⟩ := mem_guesserStep.mp hm2
  subst hdef2
  obtain ⟨hua, hucands⟩ := hgu
  obtain ⟨hta, htcands⟩ := hgt
  obtain ⟨hsigc, hascic⟩ := hucands c hc
  obtain ⟨hsigd, hascid⟩ := htcands d hd
  obtain ⟨hlc, hiffc⟩ := structEq_of_sig hua hascic hsigc
  obtain ⟨hld, hiffd⟩ := structEq_of_sig hta hascid hsigd
  obtain ⟨hmd2, hmc2, hsem⟩ :=
    swap_stages hnd hascic hascid hlc hiffc hld hiffd hmat1 hmat2
  have hndm2 : NodupKeys (newguessFor t d (newguessFor u c S)) :=
    nodupKeys_extIns (nodupKeys_extIns hnd _) _
  have hndm2' : NodupKeys (newguessFor u c (newguessFor t d S)) :=
    nodupKeys_extIns (nodupKeys_extIns hnd _) _
  obtain ⟨m', hm', hxq'⟩ :=
    propagate_obs_mono l _ _ hsem hndm2 hndm2' x q ⟨m, hmrest, hxq⟩
  refine ⟨m', ⟨newguessFor t d S, ?_, newguessFor u c (newguessFor t d S), ?_, hm'⟩, hxq'⟩
  · exact mem_guesserStep.mpr ⟨d, hd, hmd2, rfl⟩
  · exact mem_guesserStep.mpr ⟨c, hc, hmc2, rfl⟩

theorem propagate_obs_perm {cands : List Char → List (List Char)}
    {ws ws' : List (List Char)} (hperm : ws.Perm ws') :
    ∀ S : Mapping, (∀ w ∈ ws, GoodStage cands w) → NodupKeys S →
      ∀ x q, ((∃ m ∈ propagate cands ws S, alookup x m = some q) ↔
        ∃ m ∈ propagate cands ws' S, alookup x m = some q) := by
  induction hperm with
  | nil =>
    intro S _ _ x q
    exact Iff.rfl
  | cons w hsub ih =>
    intro S hgood hnd x q
    simp only [propagate, List.mem_flatMap]
    constructor
    · rintro ⟨m, ⟨m1, hm1, hmrest⟩, hxq⟩
      obtain ⟨p, hp, hmat, hdef⟩ := mem_guesserStep.mp hm1
      have hnd1 : NodupKeys m1 := hdef ▸ nodupKeys_extIns hnd _
      obtain ⟨m', hm', hxq'⟩ :=
        (ih m1 (fun w' hw' => hgood w' (List.mem_cons_of_mem _ hw')) hnd1 x q).mp
          ⟨m, hmrest, hxq⟩
      exact ⟨m', ⟨m1, hm1, hm'⟩, hxq'⟩
    · rintro ⟨m, ⟨m1, hm1, hmrest⟩, hxq⟩
      obtain ⟨p, hp, hmat, hdef⟩ := mem_guesserStep.mp hm1
      have hnd1 : NodupKeys m1 := hdef ▸ nodupKeys_extIns hnd _
      obtain ⟨m', hm', hxq'⟩ :=
        (ih m1 (fun w' hw' => hgood w' (List.mem_cons_of_mem _ hw')) hnd1 x q).mpr
          ⟨m, hmrest, hxq⟩
      exact ⟨m', ⟨m1, hm1, hm'⟩, hxq'⟩
  | swap a b l =>
    intro S hgood hnd x q
    have hga : GoodStage cands a := hgood a (by simp)
    have hgb : GoodStage cands b := hgood b (by simp)
    exact ⟨propagate_obs_swap l b a S hgb hga hnd x q,
      propagate_obs_swap l a b S hga hgb hnd x q⟩
  | trans h₁ h₂ ih₁ ih₂ =>
    intro S hgood hnd x q
    refine (ih₁ S hgood hnd x q).trans (ih₂ S ?_ hnd x q)
    intro w hw
    exact hgood w (h₁.mem_iff.mpr hw)

/-! ### Aggregator lemmas -/

theorem mem_possSet {ms : List Mapping} {x q : Char} :
    q ∈ possSet ms x ↔ ∃ m ∈ ms, alookup x m = some q := by
  unfold possSet
  rw [List.mem_dedup, List.mem_flatMap]
  constructor
  · rintro ⟨g, hg, hq⟩
    rw [List.mem_filterMap] at hq
    obtain ⟨k, hkmem, hk⟩ := hq
    by_cases hkx : k = x
    · subst hkx
      rw [if_pos rfl] at hk
      exact ⟨g, hg, hk⟩
    · rw [if_neg hkx] at hk
      cases hk
  · rintro ⟨g, hg, hq⟩
    refine ⟨g, hg, List.mem_filterMap.mpr ⟨x, ?_, by simp [hq]⟩⟩
    exact (alookup_isSome_iff x g).mp (by simp [hq])

theorem possSet_nodup (ms : List Mapping) (x : Char) : (possSet ms x).Nodup :=
  List.nodup_dedup _

theorem resolveLetter_congr {l1 l2 : List Char} (h1 : l1.Nodup) (h2 : l2.Nodup)
    (hmem : ∀ q, q ∈ l1 ↔ q ∈ l2) : resolveLetter l1 = resolveLetter l2 := by
  have hperm : l1.Perm l2 := (List.perm_ext_iff_of_nodup h1 h2).mpr hmem
  unfold resolveLetter
  rw [hperm.length_eq]
  by_cases h0 : l2.length = 0
  · simp [h0]
  · by_cases hone : l2.length = 1
    · simp only [h0, if_false, hone, if_pos rfl]
      obtain ⟨a, ha⟩ := List.length_eq_one.mp hone
      subst ha
      obtain ⟨b, hb⟩ := List.length_eq_one.mp (hperm.length_eq.trans hone)
      subst hb
      have : b = a := by
        have := (hmem b).mp (by simp)
        simpa using this
      rw [this]
    · simp [h0, hone]

theorem finaldict_congr {ms1 ms2 : List Mapping}
    (h : ∀ x q, (∃ m ∈ ms1, alookup x m = some q) ↔ ∃ m ∈ ms2, alookup x m = some q) :
    finaldict ms1 = finaldict ms2 := by
  unfold finaldict
  apply List.filterMap_congr
  intro x _
  have : resolveLetter (possSet ms1 x) = resolveLetter (possSet ms2 x) := by
    apply resolveLetter_congr (possSet_nodup ms1 x) (possSet_nodup ms2 x)
    intro q
    rw [mem_possSet, mem_possSet]
    exact h x q
  rw [this]

theorem keys_filterMap_subset (f : Char → Option Char) (l : List Char) :
    ∀ z, z ∈ (l.filterMap (fun y => (f y).map (fun v => (y, v)))).map Prod.fst → z ∈ l := by
  intro z hz
  obtain ⟨⟨y, v⟩, hmem, hfst⟩ := List.mem_map.mp hz
  obtain ⟨y', hy', hmap⟩ := List.mem_filterMap.mp hmem
  cases hf : f y' with
  | none =>
    rw [hf] at hmap
    cases hmap
  | some u =>
    rw [hf] at hmap
    simp only [Option.map_some'] at hmap
    injection hmap with hpair
    injection hpair with hy1 hv1
    subst hy1
    simp only at hfst
    subst hfst
    exact hy'

theorem alookup_filterMap_keyed (f : Char → Option Char) :
    ∀ (l : List Char), l.Nodup → ∀ x, x ∈ l →
      alookup x (l.filterMap (fun y => (f y).map (fun v => (y, v)))) = f x := by
  intro l
  induction l with
  | nil =>
    intro _ x hx
    simp at hx
  | cons a t ih =>
    intro hnd x hx
    rw [List.nodup_cons] at hnd
    rw [List.filterMap_cons]
    cases hfa : f a with
    | none =>
      simp only [Option.map_none']
      rcases List.mem_cons.mp hx with heq | hxt
      · subst heq
        rw [(alookup_eq_none_iff x _).mpr
          (fun hmem => hnd.1 (keys_filterMap_subset f t x hmem)), hfa]
      · exact ih hnd.2 x hxt
    | some v =>
      simp only [Option.map_some']
      rcases List.mem_cons.mp hx with heq | hxt
      · subst heq
        simp [alookup, hfa]
      · have hax : ¬ a = x := fun h => hnd.1 (h ▸ hxt)
        simp only [alookup, if_neg hax]
        exact ih hnd.2 x hxt

theorem asciiLowercase_nodup : asciiLowercase.Nodup := by decide

theorem alookup_finaldict {ms : List Mapping} {x : Char} (hx : x ∈ asciiLowercase) :
    alookup x (finaldict ms) = resolveLetter (possSet ms x) :=
  alookup_filterMap_keyed _ asciiLowercase asciiLowercase_nodup x hx

theorem resolveLetter_eq_none_iff {l : List Char} : resolveLetter l = none ↔ l = [] := by
  unfold resolveLetter
  by_cases h0 : l.length = 0
  · simp [h0, List.length_eq_zero.mp h0]
  · by_cases hone : l.length = 1
    · obtain ⟨a, ha⟩ := List.length_eq_one.mp hone
      subst ha
      simp [h0, hone]
    · simp only [h0, if_false, hone]
      constructor
      · intro h
        cases h
      · intro h
        subst h
        simp at h0

theorem resolveLetter_singleton (p : Char) : resolveLetter [p] = some p := rfl

theorem resolveLetter_eq_some_iff {l : List Char} {p : Char} (hnd : l.Nodup) (hp : p ≠ '_') :
    resolveLetter l = some p ↔ l = [p] := by
  constructor
  · intro h
    unfold resolveLetter at h
    by_cases h0 : l.length = 0
    · rw [if_pos h0] at h
      cases h
    · by_cases hone : l.length = 1
      · obtain ⟨a, ha⟩ := List.length_eq_one.mp hone
        subst ha
        simp only [h0, if_false, hone, if_pos rfl, List.head?_cons] at h
        injection h with hap
        rw [hap]
      · rw [if_neg h0, if_neg hone] at h
        injection h with hap
        exact absurd hap.symm hp
  · intro h
    subst h
    rfl

theorem resolveLetter_eq_amb_iff {l : List Char} (hnp : '_' ∉ l) :
    resolveLetter l = some '_' ↔ 2 ≤ l.length := by
  unfold resolveLetter
  by_cases h0 : l.length = 0
  · simp [h0]
  · by_cases hone : l.length = 1
    · obtain ⟨a, ha⟩ := List.length_eq_one.mp hone
      subst ha
      simp only [h0, if_false, hone, if_pos rfl, List.head?_cons]
      constructor
      · intro h
        injection h with hap
        exact absurd (by simp [hap]) hnp
      · intro h
        simp at h
    · simp only [h0, if_false, hone, if_false]
      constructor
      · intro _
        omega
      · intro _
        trivial

/-! ### Pipeline-construction lemmas -/

theorem scrubstring_ascii (s : List Char) : ∀ ch ∈ scrubstring s, ch ∈ asciiLowercase := by
  intro ch hch
  unfold scrubstring at hch
  have := (List.mem_filter.mp hch).2
  simpa using this

theorem mem_dedupFirst_subset {α : Type} [DecidableEq α] :
    ∀ (seen l : List α) (a : α), a ∈ dedupFirst seen l → a ∈ l := by
  intro seen l
  induction l generalizing seen with
  | nil =>
    intro a ha
    simp [dedupFirst] at ha
  | cons b t ih =>
    intro a ha
    rw [dedupFirst] at ha
    by_cases hb : b ∈ seen
    · rw [if_pos hb] at ha
      exact List.mem_cons_of_mem b (ih seen a ha)
    · rw [if_neg hb] at ha
      rcases List.mem_cons.mp ha with heq | htl
      · simp [heq]
      · exact List.mem_cons_of_mem b (ih (b :: seen) a htl)

theorem candsFor_spec {text : List Char} {dict : List (List Char)} {tup : List Nat} :
    ∀ c ∈ candsFor text dict tup,
      getpatterntuple c = tup ∧ ∀ ch ∈ c, ch ∈ asciiLowercase := by
  intro c hc
  unfold candsFor at hc
  by_cases hneed : tup ∈ (cipherlist text).map getpatterntuple
  · rw [if_pos hneed] at hc
    have hmem := mem_dedupFirst_subset [] _ c hc
    rw [List.mem_filter] at hmem
    obtain ⟨hmap, hsig⟩ := hmem
    obtain ⟨line, _, hline⟩ := List.mem_map.mp hmap
    refine ⟨by simpa using hsig, ?_⟩
    intro ch hch
    rw [← hline] at hch
    exact scrubstring_ascii line ch hch
  · rw [if_neg hneed] at hc
    cases hc

theorem cipherlist_ascii {text : List Char} :
    ∀ w ∈ cipherlist text, ∀ ch ∈ w, ch ∈ asciiLowercase := by
  intro w hw
  unfold cipherlist at hw
  obtain ⟨tok, _, htok⟩ := List.mem_map.mp (List.mem_filter.mp hw).1
  rw [← htok]
  exact scrubstring_ascii tok

theorem goodStage_pipeline {text : List Char} {dict : List (List Char)} :
    ∀ w ∈ cipherlist text, GoodStage (pipelineCands text dict) w := by
  intro w hw
  refine ⟨cipherlist_ascii w hw, ?_⟩
  intro c hc
  exact candsFor_spec c hc

theorem insertDesc_perm (cnt : List Char → Nat) (a : List Char) :
    ∀ l : List (List Char), (insertDesc cnt a l).Perm (a :: l) := by
  intro l
  induction l with
  | nil => exact List.Perm.refl _
  | cons b t ih =>
    rw [insertDesc]
    by_cases h : cnt b ≤ cnt a
    · rw [if_pos h]
    · rw [if_neg h]
      exact (List.Perm.cons b ih).trans (List.Perm.swap a b t)

theorem sortDesc_perm (cnt : List Char → Nat) :
    ∀ l : List (List Char), (sortDesc cnt l).Perm l := by
  intro l
  induction l with
  | nil => exact List.Perm.refl _
  | cons a t ih =>
    rw [sortDesc]
    exact (insertDesc_perm cnt a (sortDesc cnt t)).trans (List.Perm.cons a ih)

theorem chainWords_perm (text : List Char) (dict : List (List Char)) :
    (chainWords text dict).Perm (cipherlist text) := by
  unfold chainWords sortedCipherlist
  exact (List.reverse_perm _).trans (sortDesc_perm _ _)

theorem mem_splitSpaces_subset :
    ∀ (text : List Char) (tok : List Char), tok ∈ splitSpaces text →
      ∀ ch ∈ tok, ch ∈ text := by
  intro text
  induction text with
  | nil =>
    intro tok htok ch hch
    simp only [splitSpaces, List.mem_singleton] at htok
    subst htok
    simp at hch
  | cons c rest ih =>
    intro tok htok ch hch
    rw [splitSpaces] at htok
    by_cases hc : c = ' '
    · rw [if_pos hc] at htok
      rcases List.mem_cons.mp htok with heq | htl
      · subst heq
        simp at hch
      · exact List.mem_cons_of_mem c (ih tok htl ch hch)
    · rw [if_neg hc] at htok
      cases hsplit : splitSpaces rest with
      | nil =>
        rw [hsplit] at htok
        simp only [List.mem_singleton] at htok
        subst htok
        rcases List.mem_cons.mp hch with heq | h0
        · simp [heq]
        · simp at h0
      | cons h t =>
        rw [hsplit] at htok
        rcases List.mem_cons.mp htok with heq | htl
        · subst heq
          rcases List.mem_cons.mp hch with heq2 | h2
          · simp [heq2]
          · refine List.mem_cons_of_mem c (ih h (by rw [hsplit]; simp) ch h2)
        · exact List.mem_cons_of_mem c (ih tok (by rw [hsplit]; simp [htl]) ch hch)

theorem scrubstring_eq_nil {s : List Char} (h : ∀ ch ∈ s, ch.toLower ∉ asciiLowercase) :
    scrubstring s = [] := by
  unfold scrubstring
  rw [List.filter_eq_nil]
  intro a ha
  obtain ⟨ch, hch, hmap⟩ := List.mem_map.mp ha
  subst hmap
  simpa using h ch hch

theorem cipherlist_eq_nil {text : List Char}
    (h : ∀ ch ∈ text, ch.toLower ∉ asciiLowercase) : cipherlist text = [] := by
  unfold cipherlist
  rw [List.filter_eq_nil]
  intro w hw
  obtain ⟨tok, htok, hmap⟩ := List.mem_map.mp hw
  subst hmap
  have hnil : scrubstring tok = [] :=
    scrubstring_eq_nil (fun ch hch => h ch (mem_splitSpaces_subset text tok htok ch hch))
  simp [hnil]

theorem nodupKeys_nil : NodupKeys [] := by simp [NodupKeys]

theorem injMapping_nil : InjMapping [] := by
  intro x y q hx _
  simp [alookup] at hx

theorem prettyprint_nil_subs (text : List Char) : prettyprint text [] = text := by
  unfold prettyprint
  have h : text.map (prettyChar []) = text.map id :=
    List.map_congr_left (fun ch _ => rfl)
  rw [h, List.map_id]

theorem nodup_all_eq {l : List Char} {p : Char} (hnd : l.Nodup) (hp : p ∈ l)
    (hall : ∀ q ∈ l, q = p) : l = [p] := by
  cases l with
  | nil => simp at hp
  | cons a t =>
    have ha : a = p := hall a (by simp)
    subst ha
    cases t with
    | nil => rfl
    | cons b t2 =>
      have hb : b = a := hall b (by simp)
      rw [List.nodup_cons] at hnd
      exact absurd (by simp [hb]) hnd.1

theorem two_distinct_length {l : List Char} {q1 q2 : Char} (hne : q1 ≠ q2)
    (h1 : q1 ∈ l) (h2 : q2 ∈ l) : 2 ≤ l.length := by
  cases l with
  | nil => simp at h1
  | cons a t =>
    cases t with
    | nil =>
      simp only [List.mem_singleton] at h1 h2
      exact absurd (h1.trans h2.symm) hne
    | cons b t2 => simp

theorem length_two_distinct {l : List Char} (hnd : l.Nodup) (h : 2 ≤ l.length) :
    ∃ q1 q2, q1 ≠ q2 ∧ q1 ∈ l ∧ q2 ∈ l := by
  cases l with
  | nil => simp at h
  | cons a t =>
    cases t with
    | nil => simp at h
    | cons b t2 =>
      rw [List.nodup_cons] at hnd
      exact ⟨a, b, fun hab => hnd.1 (by simp [hab]), by simp, by simp⟩

theorem injMapping_singleton (a b : Char) : InjMapping [(a, b)] := by
  intro x y q hx hy
  by_cases hax : a = x
  · by_cases hay : a = y
    · rw [← hax, ← hay]
    · simp [alookup, hay] at hy
  · simp [alookup, hax] at hx

/-! ### Claim theorems -/

/-- C1: every run of the pipeline starts from the empty mapping, and at
every depth `k` of the chain, every mapping forwarded past the first `k`
stages — in particular every mapping the Aggregator (`guesscollector`)
ever observes — is injective: no two distinct cipher letters map to the
same plain letter. -/
theorem pipeline_mappings_injective (text : List Char) (dict : List (List Char)) (k : Nat)
    (m : Mapping)
    (hm : m ∈ propagate (pipelineCands text dict) ((chainWords text dict).take k) []) :
    InjMapping m := by
  have hgood : ∀ w ∈ (chainWords text dict).take k, GoodStage (pipelineCands text dict) w := by
    intro w hw
    have hw2 : w ∈ chainWords text dict := List.mem_of_mem_take hw
    exact goodStage_pipeline w ((chainWords_perm text dict).mem_iff.mp hw2)
  exact (propagate_inv _ [] hgood nodupKeys_nil injMapping_nil m hm).2

/-- C1 witness: on ciphertext `xdg` with dictionary `[dog]`, the single
mapping reaching the Aggregator is injective. -/
theorem pipeline_mappings_injective_witness :
    InjMapping [('x', 'd'), ('d', 'o'), ('g', 'g')] :=
  pipeline_mappings_injective "xdg".toList ["dog".toList] 1
    [('x', 'd'), ('d', 'o'), ('g', 'g')] (by decide)

/-- C2: for a ciphertext word, a candidate of the same pattern signature
and an injective inbound mapping, the regex built by `getregex` admits
the candidate iff at every position the cipher letter is mapped and the
candidate letter equals its value, or it is unmapped and the candidate
letter differs from the value of every mapped cipher letter; and for an
admitted candidate the stage emits the inbound mapping extended exactly
by the assignment cipher-letter(i) to candidate-letter(i) at every
previously-unmapped position (`guesserStep` emits exactly one such
mapping per admitted candidate, by definition of its filter-map loop). -/
theorem matcher_admits_iff_and_extension (w p : List Char) (S : Mapping)
    (hnd : NodupKeys S) (hinj : InjMapping S)
    (hsig : getpatterntuple p = getpatterntuple w)
    (hw : ∀ ch ∈ w, ch ∈ asciiLowercase) (hp : ∀ ch ∈ p, ch ∈ asciiLowercase) :
    (regexMatches w S p = true ↔
      ∀ i ci pi, w.get? i = some ci → p.get? i = some pi →
        (∀ v, alookup ci S = some v → pi = v) ∧
          (alookup ci S = none → ∀ y q, alookup y S = some q → pi ≠ q)) ∧
    (regexMatches w S p = true →
      (∀ x q, alookup x S = some q → alookup x (newguessFor w p S) = some q) ∧
        (∀ i ci, w.get? i = some ci → alookup ci (newguessFor w p S) = p.get? i) ∧
        (∀ x, x ∉ w → alookup x (newguessFor w p S) = alookup x S) ∧
        ∀ cands : List (List Char),
          guesserStep w cands S =
            (cands.filter (fun c => regexMatches w S c)).map (fun c => newguessFor w c S)) := by
  obtain ⟨hl, hiff⟩ := structEq_of_sig hw hp hsig
  constructor
  · constructor
    · intro hmat i ci pi hci hpi
      have hatom := (regexMatches_iff.mp hmat).2 i ci pi hci hpi
      constructor
      · intro v hv
        rw [atomMatches, hv] at hatom
        simpa using hatom
      · intro hnone
        rw [atomMatches, hnone] at hatom
        exact (wildMatches_iff_of_ascii hnd (hp pi (List.get?_mem hpi))).mp hatom
    · intro hpos
      rw [regexMatches_iff]
      refine ⟨hl, ?_⟩
      intro i ci pi hci hpi
      obtain ⟨hmapv, hwild⟩ := hpos i ci pi hci hpi
      cases hciS : alookup ci S with
      | some v =>
        rw [atomMatches, hciS]
        simp [hmapv v hciS]
      | none =>
        rw [atomMatches, hciS]
        exact (wildMatches_iff_of_ascii hnd (hp pi (List.get?_mem hpi))).mpr (hwild hciS)
  · intro hmat
    refine ⟨fun x q hq => alookup_newguessFor_agree hmat hq, ?_, ?_, fun _ => rfl⟩
    · intro i ci hci
      exact alookup_newguessFor_pos hl hiff hci
    · intro x hx
      exact alookup_newguessFor_neg hl hx

/-- C2 witness: for cipherword `xdg`, inbound mapping `x` to `d`, and
candidate `dog`, the regex admits the candidate and the emitted mapping
sends `d` to `o`. -/
theorem matcher_admits_iff_and_extension_witness :
    alookup 'd' (newguessFor "xdg".toList "dog".toList [('x', 'd')]) = "dog".toList.get? 1 :=
  ((matcher_admits_iff_and_extension "xdg".toList "dog".toList [('x', 'd')]
    (by unfold NodupKeys; decide) (injMapping_singleton 'x' 'd')
    (by decide) (by decide) (by decide)).2 (by decide)).2.1 1 'd' (by decide)

/-- C3 counterexample: on ciphertext `ab zzzz` with dictionary `[to]`,
the word `ab` has the candidate `to` for its letters, yet the final
resolution table is empty — the letter `a`, though constrained by a word
with candidates, resolves Unknown instead of resolving from those
candidates, because the zero-candidate stage for `zzzz` sits at the
chain's entry and forwards nothing. -/
theorem zero_candidate_word_counterexample :
    candsFor "ab zzzz".toList ["to".toList] (getpatterntuple "ab".toList) = ["to".toList] ∧
      resolutionPipeline "ab zzzz".toList ["to".toList] = [] ∧
      alookup 'a' (resolutionPipeline "ab zzzz".toList ["to".toList]) = none := by
  refine ⟨by decide, by decide, by decide⟩

/-- C3 amended: a ciphertext word whose signature matches zero dictionary
words yields zero candidates at its stage and does not abort the run; but
because the chain is linear, no mapping at all then reaches the
Aggregator: the Aggregator observes nothing, every cipher letter —
including letters of words that do have candidates — resolves Unknown,
and the printed output is the original text unchanged. -/
theorem zero_candidate_word_starves_chain (text : List Char) (dict : List (List Char))
    (h : ∃ w ∈ cipherlist text, pipelineCands text dict w = []) :
    observedPipeline text dict = [] ∧ resolutionPipeline text dict = [] ∧
      decrypt text dict = text := by
  have hchain : ∃ w ∈ chainWords text dict, pipelineCands text dict w = [] := by
    obtain ⟨w, hw, hc⟩ := h
    exact ⟨w, (chainWords_perm text dict).mem_iff.mpr hw, hc⟩
  have hobs : observedPipeline text dict = [] := by
    unfold observedPipeline
    exact propagate_empty_cands hchain []
  have hres : resolutionPipeline text dict = [] := by
    unfold resolutionPipeline
    rw [hobs]
    rfl
  refine ⟨hobs, hres, ?_⟩
  unfold decrypt
  rw [hres]
  exact prettyprint_nil_subs text

/-- C3 amended witness: on `ab zzzz` with dictionary `[to]` the chain is
starved and the output is the input. -/
theorem zero_candidate_word_starves_chain_witness :
    resolutionPipeline "ab zzzz".toList ["to".toList] = [] ∧
      decrypt "ab zzzz".toList ["to".toList] = "ab zzzz".toList := by
  have h := zero_candidate_word_starves_chain "ab zzzz".toList ["to".toList]
    ⟨"zzzz".toList, by decide, by decide⟩
  exact ⟨h.2.1, h.2.2⟩

/-- C4 counterexample: for ciphertext `ab ab` the chain has two guesser
stages although there is only one distinct normalized word, so the stage
count does not equal the distinct-word count. -/
theorem duplicate_words_not_dedup_counterexample :
    (chainWords "ab ab".toList []).length = 2 ∧
      (dedupFirst [] (cipherlist "ab ab".toList)).length = 1 ∧
      (chainWords "ab ab".toList []).length ≠
        (dedupFirst [] (cipherlist "ab ab".toList)).length := by
  refine ⟨by decide, by decide, by decide⟩

/-- C4 amended: the assembled chain contains one guesser stage per word
occurrence: the number of stages equals the number of nonempty
normalized word occurrences in the ciphertext, with no deduplication of
repeated words. -/
theorem stage_count_eq_occurrence_count (text : List Char) (dict : List (List Char)) :
    (chainWords text dict).length = (cipherlist text).length :=
  (chainWords_perm text dict).length_eq

/-- C5: the pipeline is deterministic — running it twice on the same
ciphertext and dictionary gives the same Resolution table — and the
table does not depend on the order in which the word stages are
composed: for every permutation of the chain's words, propagating the
empty mapping through the permuted chain yields the same final table. -/
theorem resolution_order_invariant (text : List Char) (dict : List (List Char))
    (ws : List (List Char)) (hperm : (chainWords text dict).Perm ws) :
    resolutionPipeline text dict = resolutionPipeline text dict ∧
      finaldict (propagate (pipelineCands text dict) ws []) = resolutionPipeline text dict := by
  refine ⟨rfl, ?_⟩
  unfold resolutionPipeline observedPipeline
  apply finaldict_congr
  intro x q
  have hgood : ∀ w ∈ ws, GoodStage (pipelineCands text dict) w := by
    intro w hw
    have hw2 : w ∈ chainWords text dict := hperm.mem_iff.mpr hw
    exact goodStage_pipeline w ((chainWords_perm text dict).mem_iff.mp hw2)
  exact propagate_obs_perm hperm.symm [] hgood nodupKeys_nil x q

/-- C5 witness: on `xd xdg` with dictionary `[do, dog]`, evaluating the
chain in the swapped order yields the same Resolution table as the
pipeline's own order. -/
theorem resolution_order_invariant_witness :
    finaldict (propagate (pipelineCands "xd xdg".toList ["do".toList, "dog".toList])
        ["xd".toList, "xdg".toList] []) =
      resolutionPipeline "xd xdg".toList ["do".toList, "dog".toList] :=
  (resolution_order_invariant "xd xdg".toList ["do".toList, "dog".toList]
    ["xd".toList, "xdg".toList] (by decide)).2

/-- C6 counterexample: for the mixed-case words `Aa` and `ab` there is a
bijection between their letters carrying one to the other position by
position, yet `getpatterntuple` (which lowercases first) gives them
different signatures, so the claimed equivalence fails for arbitrary
words. -/
theorem signature_bijection_counterexample :
    ¬ (getpatterntuple "Aa".toList = getpatterntuple "ab".toList ↔
        ∃ f : Char → Char, Set.InjOn f {c | c ∈ "Aa".toList} ∧
          "Aa".toList.map f = "ab".toList) := by
  intro h
  have hrhs : ∃ f : Char → Char, Set.InjOn f {c | c ∈ "Aa".toList} ∧
      "Aa".toList.map f = "ab".toList := by
    refine ⟨fun c => if c = 'A' then 'a' else if c = 'a' then 'b' else c, ?_, by decide⟩
    intro a ha b hb hfe
    simp only [Set.mem_setOf_eq] at ha hb
    have hmem : ∀ z : Char, z ∈ "Aa".toList → z = 'A' ∨ z = 'a' := by decide
    rcases hmem a ha with ha2 | ha2 <;> rcases hmem b hb with hb2 | hb2 <;>
      subst ha2 <;> subst hb2 <;> first | rfl | (exact absurd hfe (by decide))
  exact absurd (h.mpr hrhs) (by decide)

/-- C6 amended: restricted to words that lowercasing leaves unchanged
(every normalized word is such), the signatures computed by
`getpatterntuple` are equal iff there is a bijection between the words'
letters that preserves position-wise equality and inequality, applying
it letter for letter carries the first word to the second. -/
theorem signature_eq_iff_letter_bijection (w1 w2 : List Char)
    (h1 : ∀ c ∈ w1, c.toLower = c) (h2 : ∀ c ∈ w2, c.toLower = c) :
    getpatterntuple w1 = getpatterntuple w2 ↔
      ∃ f : Char → Char, Set.InjOn f {c | c ∈ w1} ∧ w1.map f = w2 := by
  rw [getpatterntuple_of_lower h1, getpatterntuple_of_lower h2, patternAux_eq_iff_structEq]
  constructor
  · exact structEq_bijection
  · rintro ⟨f, hinj, hmap⟩
    exact bijection_structEq hinj hmap

/-- C6 amended witness: `sees` and `noon` share a signature, so a
letter bijection between them exists. -/
theorem signature_eq_iff_letter_bijection_witness :
    ∃ f : Char → Char, Set.InjOn f {c | c ∈ "sees".toList} ∧
      "sees".toList.map f = "noon".toList :=
  (signature_eq_iff_letter_bijection "sees".toList "noon".toList
    (by decide) (by decide)).mp (by decide)

/-- C7: when the Aggregator is finalized, a cipher letter maps to `p` in
the final table exactly when the set of plain letters ever proposed for
it is the singleton set containing `p`; it maps to the placeholder
underscore exactly when at least two distinct plain letters were
proposed; and it is absent from the table (Unknown, no substitution)
exactly when no plain letter was ever proposed.  The placeholder itself
is never a proposed plain letter in a run, which the last hypothesis
records. -/
theorem finalize_resolution_characterization (ms : List Mapping) (x : Char)
    (hx : x ∈ asciiLowercase)
    (hnp : ¬ ∃ m ∈ ms, alookup x m = some '_') :
    (alookup x (finaldict ms) = none ↔ ¬ ∃ q, ∃ m ∈ ms, alookup x m = some q) ∧
      (∀ p, p ≠ '_' →
        (alookup x (finaldict ms) = some p ↔
          (∃ m ∈ ms, alookup x m = some p) ∧
            ∀ q, (∃ m ∈ ms, alookup x m = some q) → q = p)) ∧
      (alookup x (finaldict ms) = some '_' ↔
        ∃ q1 q2, q1 ≠ q2 ∧ (∃ m ∈ ms, alookup x m = some q1) ∧
          ∃ m ∈ ms, alookup x m = some q2) := by
  rw [alookup_finaldict hx]
  have hmemposs : ∀ q, q ∈ possSet ms x ↔ ∃ m ∈ ms, alookup x m = some q :=
    fun q => mem_possSet
  have hnd := possSet_nodup ms x
  have hnpl : '_' ∉ possSet ms x := fun hmem => hnp ((hmemposs '_').mp hmem)
  refine ⟨?_, ?_, ?_⟩
  · rw [resolveLetter_eq_none_iff]
    constructor
    · rintro h ⟨q, hq⟩
      have := (hmemposs q).mpr hq
      rw [h] at this
      simp at this
    · intro h
      rw [List.eq_nil_iff_forall_not_mem]
      intro q hq
      exact h ⟨q, (hmemposs q).mp hq⟩
  · intro p hp
    rw [resolveLetter_eq_some_iff hnd hp]
    constructor
    · intro h
      refine ⟨(hmemposs p).mp (by rw [h]; simp), ?_⟩
      intro q hq
      have := (hmemposs q).mpr hq
      rw [h] at this
      simpa using this
    · rintro ⟨hpmem, hall⟩
      apply nodup_all_eq hnd ((hmemposs p).mpr hpmem)
      intro q hq
      exact hall q ((hmemposs q).mp hq)
  · rw [resolveLetter_eq_amb_iff hnpl]
    constructor
    · intro h
      obtain ⟨q1, q2, hne, h1, h2⟩ := length_two_distinct hnd h
      exact ⟨q1, q2, hne, (hmemposs q1).mp h1, (hmemposs q2).mp h2⟩
    · rintro ⟨q1, q2, hne, hq1, hq2⟩
      exact two_distinct_length hne ((hmemposs q1).mpr hq1) ((hmemposs q2).mpr hq2)

/-- C7 witness: with two observed guesses proposing `t` and `u` for the
letter `a`, the finalized table marks `a` ambiguous because two distinct
plain letters were proposed. -/
theorem finalize_resolution_characterization_witness :
    ∃ q1 q2, q1 ≠ q2 ∧
      (∃ m ∈ [[('a', 't')], [('a', 'u')]], alookup 'a' m = some q1) ∧
      ∃ m ∈ [[('a', 't')], [('a', 'u')]], alookup 'a' m = some q2 :=
  (finalize_resolution_characterization [[('a', 't')], [('a', 'u')]] 'a'
    (by decide) (by decide)).2.2.mp (by decide)

/-- C8: `prettyprint` returns a string of the same length as its input
in which, position by position, a character of `ascii_lowercase` whose
entry is in the table is replaced by its table value, any other
character whose lowercase form is in the table is replaced by the value
uppercased, and every character whose lowercase form is not in the table
— in particular every non-alphabetic character and every Unknown letter
— passes through unchanged. -/
theorem prettyprint_characterization (text : List Char) (subs : Mapping) :
    (prettyprint text subs).length = text.length ∧
      ∀ i ch, text.get? i = some ch →
        (ch ∈ asciiLowercase → ∀ v, alookup ch subs = some v →
            (prettyprint text subs).get? i = some v) ∧
          (ch ∉ asciiLowercase → ∀ v, alookup ch.toLower subs = some v →
            (prettyprint text subs).get? i = some v.toUpper) ∧
          (alookup ch.toLower subs = none → (prettyprint text subs).get? i = some ch) := by
  refine ⟨by simp [prettyprint], ?_⟩
  intro i ch hch
  have hmap : (prettyprint text subs).get? i = some (prettyChar subs ch) := by
    unfold prettyprint
    rw [List.get?_map, hch]
    rfl
  refine ⟨?_, ?_, ?_⟩
  · intro hlow v hv
    have hlower : ch.toLower = ch := toLower_fixed_of_ascii ch hlow
    have hval : prettyChar subs ch = v := by
      unfold prettyChar
      rw [hlower, hv]
      simp [hlow]
    rw [hmap, hval]
  · intro hnotlow v hv
    have hval : prettyChar subs ch = v.toUpper := by
      unfold prettyChar
      rw [hv]
      simp [hnotlow]
    rw [hmap, hval]
  · intro hnone
    have hval : prettyChar subs ch = ch := by
      unfold prettyChar
      rw [hnone]
    rw [hmap, hval]

/-- C8 witness: `Xdg!` with the table sending `x` to `d`, `d` to `o` and
`g` to `g` renders as `Dog!`, and in particular the uppercase `X` at
position 0 becomes `D`. -/
theorem prettyprint_characterization_witness :
    prettyprint "Xdg!".toList [('x', 'd'), ('d', 'o'), ('g', 'g')] = "Dog!".toList ∧
      (prettyprint "Xdg!".toList [('x', 'd'), ('d', 'o'), ('g', 'g')]).get? 0 = some 'D' := by
  refine ⟨by decide, ?_⟩
  exact ((prettyprint_characterization "Xdg!".toList
    [('x', 'd'), ('d', 'o'), ('g', 'g')]).2 0 'X' (by decide)).2.1 (by decide) 'd' (by decide)

/-- C9: a stage never changes the inbound mapping (in this pure
embedding the inbound value is shared unchanged); every mapping the
stage forwards downstream agrees with the inbound mapping on every
cipher letter the inbound mapping defines, and a cipher letter whose
forwarded value differs from its inbound lookup can only be one the
inbound mapping left unmapped. -/
theorem stage_preserves_inbound (w : List Char) (cands : List (List Char)) (S m : Mapping)
    (hm : m ∈ guesserStep w cands S) :
    (∀ x q, alookup x S = some q → alookup x m = some q) ∧
      ∀ x, alookup x m ≠ alookup x S → alookup x S = none := by
  obtain ⟨p, hp, hmat, hdef⟩ := mem_guesserStep.mp hm
  subst hdef
  refine ⟨fun x q hq => alookup_newguessFor_agree hmat hq, ?_⟩
  intro x hne
  cases hx : alookup x S with
  | none => rfl
  | some q => exact absurd ((alookup_newguessFor_agree hmat hx).trans hx.symm) hne

/-- C9 witness: the stage for `xdg` fed the mapping sending `x` to `d`
forwards a mapping that still sends `x` to `d`. -/
theorem stage_preserves_inbound_witness :
    alookup 'x' [('x', 'd'), ('d', 'o'), ('g', 'g')] = some 'd' :=
  (stage_preserves_inbound "xdg".toList ["dog".toList] [('x', 'd')]
    [('x', 'd'), ('d', 'o'), ('g', 'g')] (by decide)).1 'x' 'd' (by decide)

/-- C10: on an input with no ASCII alphabetic character every token
normalizes to the empty string, the chain is empty, the Aggregator
receives exactly the initial empty mapping, the final table is empty —
every cipher letter resolves Unknown — and the printed output is the
original input text, character for character. -/
theorem no_alpha_input_passthrough (text : List Char) (dict : List (List Char))
    (h : ∀ ch ∈ text, ch.toLower ∉ asciiLowercase) :
    observedPipeline text dict = [[]] ∧ resolutionPipeline text dict = [] ∧
      decrypt text dict = text := by
  have hcl : cipherlist text = [] := cipherlist_eq_nil h
  have hchain : chainWords text dict = [] := by
    unfold chainWords sortedCipherlist
    rw [hcl]
    rfl
  have hobs : observedPipeline text dict = [[]] := by
    unfold observedPipeline
    rw [hchain]
    rfl
  have hres : resolutionPipeline text dict = [] := by
    unfold resolutionPipeline
    rw [hobs]
    rfl
  refine ⟨hobs, hres, ?_⟩
  unfold decrypt
  rw [hres]
  exact prettyprint_nil_subs text

/-- C10 witness: the all-symbol input `123 !?` is printed back
unchanged and its run resolves nothing. -/
theorem no_alpha_input_passthrough_witness :
    observedPipeline "123 !?".toList ["ab".toList] = [[]] ∧
      decrypt "123 !?".toList ["ab".toList] = "123 !?".toList := by
  have h := no_alpha_input_passthrough "123 !?".toList ["ab".toList] (by decide)
  exact ⟨h.1, h.2.2⟩
